import Mathlib

/-!
# Verification of the clippy clipboard-history engine

A shallow embedding of the clipboard-history store
(`internal/history/history.go` together with the `internal/db` client it
drives) and of the fuzzy-match scorer and search facade
(`internal/search/fuzzy.go`), with theorems settling the frozen claims
about the specification.

Modelling conventions:
* Go strings are modelled as lists of byte values (`List Nat`); the scorer
  in `fuzzy.go` indexes strings byte by byte, so this is the faithful view.
  `strings.ToLower` is modelled by its action on ASCII bytes (the only
  behaviour the spec pins down; non-ASCII folding is explicitly left open
  in spec section 9).
* `time.Time` values are modelled as natural numbers; `time.Now()` becomes
  an explicit `now` argument of the operations that read the clock.
* Durable-storage calls (`db.Client.Insert` / `Delete` / `IncrementCount` /
  `LoadAll`) are synchronous calls whose only observable behaviour in the
  store's code is success or failure (plus, for `LoadAll`, the returned
  rows).  Each operation therefore takes the outcome of its storage call as
  an explicit argument, and the theorems quantify over it.
-/

namespace history

/-- Modelled from the spec: the fingerprint is the SHA-256 hex digest of the
content (`fmt.Sprintf("%x", sha256.Sum256([]byte(content)))` in
`newClipboardItem`).  The digest computation lives in Go's standard library,
outside this repository; the store depends only on the digest being a
deterministic, collision-free, never-empty function of the content, so it is
modelled injectively by prepending a byte to the content.  (Never-empty
matters: the Go zero value of `Manager.lastHash` is the empty string, and a
real 64-hex-character digest never equals it.) -/
def hashOf (content : List Nat) : List Nat :=
  0 :: content

/-- Embeds `history.ClipboardHistory` (types.go): one clipboard entry. -/
structure ClipboardHistory where
  Item : List Nat
  Hash : List Nat
  TimeStamp : Nat
  Count : Nat
deriving DecidableEq

instance : Inhabited ClipboardHistory :=
  ⟨⟨[], [], 0, 0⟩⟩

/-- Embeds `db.ClipboardEntry`: one persisted row. -/
structure ClipboardEntry where
  Content : List Nat
  Hash : List Nat
  Timestamp : Nat
  Count : Nat
deriving DecidableEq

/-- Embeds `history.Manager`: the in-memory index.  The `dbClient`/`dbPath` fields
carry no state observable by the claims; storage outcomes are passed to each
operation explicitly. -/
structure Manager where
  items : List ClipboardHistory
  hashes : List (List Nat)
  lastHash : List Nat
deriving DecidableEq

/-- The manager built by `NewManagerWithPath`: empty index, empty hash set,
`lastHash` the zero-value empty string. -/
def initManager : Manager :=
  ⟨[], [], []⟩

/-- Insertion into the `map[string]struct{}` hash set, modelled as a
duplicate-free list of keys. -/
def insertKey (ks : List (List Nat)) (k : List Nat) : List (List Nat) :=
  if ks.contains k then ks else k :: ks

/-- Embeds `newClipboardItem`: fresh item with `copyCount = 0` and the current
time. -/
def newClipboardItem (content : List Nat) (now : Nat) : ClipboardHistory :=
  ⟨content, hashOf content, now, 0⟩

/-- Embeds `Manager.containsHash`: membership in the hash set, or equality with the
separately retained `lastHash`. -/
def containsHash (m : Manager) (s : List Nat) : Bool :=
  m.hashes.contains s || m.lastHash == s

/-- Embeds `Manager.AddItem`.  `dbOk` is the outcome of `dbClient.Insert`; on a
failed insert the method returns `false` with the index untouched. -/
def AddItem (m : Manager) (content : List Nat) (now : Nat) (dbOk : Bool) :
    Manager × Bool :=
  let item := newClipboardItem content now
  if !(containsHash m item.Hash) then
    if dbOk then
      ({ m with
          items := m.items ++ [item],
          lastHash := item.Hash,
          hashes := insertKey m.hashes item.Hash }, true)
    else (m, false)
  else (m, false)

/-- Embeds `Manager.GetItems`. -/
def GetItems (m : Manager) : List ClipboardHistory :=
  m.items

/-- Embeds `Manager.GetItem`: positional lookup; Go's `int` index is an `Int`. -/
def GetItem (m : Manager) (index : Int) : ClipboardHistory × Bool :=
  if 0 ≤ index ∧ index < (m.items.length : Int) then
    (m.items.getD index.toNat default, true)
  else
    (default, false)

/-- Embeds `Manager.DeleteItem`.  `dbOk` is the outcome of `dbClient.Delete`; on a
failed delete the method returns `false` with the index untouched.  Note the
method erases the item's hash from the hash set but never clears
`lastHash`. -/
def DeleteItem (m : Manager) (index : Int) (dbOk : Bool) : Manager × Bool :=
  if 0 ≤ index ∧ index < (m.items.length : Int) then
    let item := m.items.getD index.toNat default
    if dbOk then
      ({ m with
          hashes := m.hashes.erase item.Hash,
          items := m.items.eraseIdx index.toNat }, true)
    else (m, false)
  else (m, false)

/-- Embeds `Manager.Count`. -/
def Count (m : Manager) : Nat :=
  m.items.length

/-- Embeds `Manager.IncrementItemCount`.  `dbOk` is the outcome of
`dbClient.IncrementCount`; the `Bool` result is `true` for a `nil` error. -/
def IncrementItemCount (m : Manager) (index : Int) (dbOk : Bool) :
    Manager × Bool :=
  if 0 ≤ index ∧ index < (m.items.length : Int) then
    if dbOk then
      let item := m.items.getD index.toNat default
      ({ m with
          items := m.items.set index.toNat { item with Count := item.Count + 1 } },
        true)
    else (m, false)
  else (m, false)

/-- Embeds `Manager.LoadFromDB`.  `rows` is the outcome of `dbClient.LoadAll`:
`none` models a load error (the method returns the error before touching the
index), `some entries` the successfully loaded rows in the order the query
returned them.  The loop rebuilds `items` and `hashes` from scratch and sets
`lastHash` to each loaded hash in turn, so it ends at the last row's hash
(or keeps its previous value when there are no rows). -/
def LoadFromDB (m : Manager) (rows : Option (List ClipboardEntry)) :
    Manager × Bool :=
  match rows with
  | none => (m, false)
  | some entries =>
    let items := entries.map fun e =>
      ClipboardHistory.mk e.Content e.Hash e.Timestamp e.Count
    ({ items := items,
       hashes := items.foldl (fun hs it => insertKey hs it.Hash) [],
       lastHash := items.foldl (fun _ it => it.Hash) m.lastHash }, true)

/-- The order in which `db.Client.LoadAll` returns rows, as fixed by its SQL
query: `ORDER BY count DESC, timestamp DESC`. -/
def dbOrder (a b : ClipboardEntry) : Prop :=
  b.Count < a.Count ∨ (a.Count = b.Count ∧ b.Timestamp ≤ a.Timestamp)

instance : DecidableRel dbOrder := fun a b => by
  unfold dbOrder; infer_instance

/-- The spec's ranking invariant, read off a pair `(a, b)` with `a` listed
before `b`: `b` must not out-count `a`, and on equal counts `a` must be at
least as recent. -/
def rankRel (a b : ClipboardHistory) : Prop :=
  b.Count ≤ a.Count ∧ (a.Count = b.Count → b.TimeStamp ≤ a.TimeStamp)

instance : DecidableRel rankRel := fun a b => by
  unfold rankRel; infer_instance

end history

namespace search

/-- Embeds `isWordBoundary` (fuzzy.go): space, `-`, `_`, `.`, `/`, `\` as byte
values. -/
def isWordBoundary (c : Nat) : Bool :=
  c == 32 || c == 45 || c == 95 || c == 46 || c == 47 || c == 92

/-- Embeds `isLower` (fuzzy.go): ASCII `a`..`z`. -/
def isLower (c : Nat) : Bool :=
  97 ≤ c && c ≤ 122

/-- Embeds `isUpper` (fuzzy.go): ASCII `A`..`Z`. -/
def isUpper (c : Nat) : Bool :=
  65 ≤ c && c ≤ 90

/-- Embeds `strings.ToLower` on one ASCII byte: fold `A`..`Z` to `a`..`z`.
Non-ASCII folding is left open by the spec (section 9) and by every claim. -/
def toLowerByte (c : Nat) : Nat :=
  if isUpper c then c + 32 else c

/-- Embeds `strings.ToLower` on a whole (ASCII) string. -/
def toLowerStr (s : List Nat) : List Nat :=
  s.map toLowerByte

/-- The matching loop of `FuzzyMatcher.fuzzyMatch`, one recursive step per
text byte.  `n` is `len(text)`, `done` the already scanned prefix in
reverse (so `done.head?` is `text[textIdx-1]` and `done.length` is
`textIdx`), `rest` the unscanned suffix `text[textIdx:]`, `query` the
unmatched query suffix, `lastMatchIdx` and `consec` the loop variables
`lastMatchIdx` (initially `-1`) and `consecutiveMatches`, and `score` the
accumulator.  When the query is exhausted the loop exits and the final
length bonus is applied. -/
def fmGo (n : Nat) : List Nat → List Nat → List Nat → Int → Nat → Nat → Nat
  | _, _, [], _, _, score =>
      if n < 50 then score + (50 - n) * 2 else score
  | _, [], _ :: _, _, _, _ => 0
  | done, t :: ts, q :: qs, lastMatchIdx, consec, score =>
      if t == q then
        let positionScore := n - done.length
        let step :=
          if (done.length : Int) = lastMatchIdx + 1 then
            (consec + 1, positionScore + (consec + 1) * 10)
          else
            (0, positionScore)
        let wbBonus :=
          match done.head? with
          | none => 15
          | some p => if isWordBoundary p then 15 else 0
        let caseBonus :=
          match done.head? with
          | none => 0
          | some p => if isLower p && isUpper t then 10 else 0
        fmGo n (t :: done) ts qs (done.length : Int) step.1
          (score + step.2 + wbBonus + caseBonus)
      else
        fmGo n (t :: done) ts (q :: qs) lastMatchIdx consec score

/-- Embeds `FuzzyMatcher.fuzzyMatch`: empty query scores `1`; empty text with a
non-empty query scores `0`; otherwise run the matching loop over the whole
text. -/
def fuzzyMatch (text query : List Nat) : Nat :=
  if query.isEmpty then 1
  else if text.isEmpty then 0
  else fmGo text.length [] text query (-1) 0 0

/-- The spec's `Score(text, query)`: the scorer exactly as the public search
path invokes it, with both arguments lower-cased first
(`f.fuzzyMatch(strings.ToLower(item.Item), strings.ToLower(query))`). -/
def Score (text query : List Nat) : Nat :=
  fuzzyMatch (toLowerStr text) (toLowerStr query)

/-- Embeds `search.ScoredItem`. -/
structure ScoredItem where
  Item : history.ClipboardHistory
  Score : Nat
deriving DecidableEq

instance : Inhabited ScoredItem :=
  ⟨⟨default, 0⟩⟩

/-- The parallel assignment `matches[i], matches[j] = matches[j], matches[i]`. -/
def listSwap (l : List ScoredItem) (i j : Nat) : List ScoredItem :=
  let a := l.getD i default
  let b := l.getD j default
  (l.set i b).set j a

/-- The inner loop of `sortByScore`: `for j := i+1; j < len(matches); j++`,
swapping whenever `matches[j].Score > matches[i].Score`.  `fuel` bounds the
remaining iterations (`len(matches) - j` at entry); swaps preserve the
length, so the fuel is exact. -/
def innerLoop (i : Nat) : Nat → Nat → List ScoredItem → List ScoredItem
  | 0, _, arr => arr
  | fuel + 1, j, arr =>
      if j < arr.length then
        if (arr.getD j default).Score > (arr.getD i default).Score then
          innerLoop i fuel (j + 1) (listSwap arr i j)
        else
          innerLoop i fuel (j + 1) arr
      else arr

/-- The outer loop of `sortByScore`: `for i := 0; i < len(matches)-1; i++`
(the Go condition `i < len-1` over `int` is `i + 1 < len` over `Nat`). -/
def outerLoop : Nat → Nat → List ScoredItem → List ScoredItem
  | 0, _, arr => arr
  | fuel + 1, i, arr =>
      if i + 1 < arr.length then
        outerLoop fuel (i + 1) (innerLoop i (arr.length - (i + 1)) (i + 1) arr)
      else arr

/-- Embeds `FuzzyMatcher.sortByScore`: the in-place double loop, run to
completion.  (`matches` in the Go source; `ms` here, since `matches` is a
reserved word in Lean.) -/
def sortByScore (ms : List ScoredItem) : List ScoredItem :=
  outerLoop ms.length 0 ms

/-- Embeds `FuzzyMatcher.Search`.  The Go function returns the untyped `nil` slice
for an empty query and a freshly allocated (hence non-nil) slice otherwise;
`Option` keeps that observable distinction (`none` = nil). -/
def Search (items : List history.ClipboardHistory) (query : List Nat) :
    Option (List history.ClipboardHistory) :=
  if query == [] then none
  else
    let q := toLowerStr query
    let ms := items.filterMap fun item =>
      let score := fuzzyMatch (toLowerStr item.Item) q
      if score > 0 then some (ScoredItem.mk item score) else none
    some ((sortByScore ms).map (·.Item))

/-! ### Spec-side variants of the scorer

Each variant below is written from the words of a claim (or of its
amendment), to be compared against the scorer embedded from the source. -/

/-- Variant of `fmGo` with the case-transition branch removed; used to state
that the branch is dead on the public search path. -/
def fmGoNC (n : Nat) : List Nat → List Nat → List Nat → Int → Nat → Nat → Nat
  | _, _, [], _, _, score =>
      if n < 50 then score + (50 - n) * 2 else score
  | _, [], _ :: _, _, _, _ => 0
  | done, t :: ts, q :: qs, lastMatchIdx, consec, score =>
      if t == q then
        let positionScore := n - done.length
        let step :=
          if (done.length : Int) = lastMatchIdx + 1 then
            (consec + 1, positionScore + (consec + 1) * 10)
          else
            (0, positionScore)
        let wbBonus :=
          match done.head? with
          | none => 15
          | some p => if isWordBoundary p then 15 else 0
        fmGoNC n (t :: done) ts qs (done.length : Int) step.1
          (score + step.2 + wbBonus)
      else
        fmGoNC n (t :: done) ts (q :: qs) lastMatchIdx consec score

/-- Variant of `fuzzyMatch` without the case-transition bonus. -/
def fuzzyMatchNC (text query : List Nat) : Nat :=
  if query.isEmpty then 1
  else if text.isEmpty then 0
  else fmGoNC text.length [] text query (-1) 0 0

/-- Written from claim C4's words: the matching loop run over the text in
its original casing, comparing lower-cased forms, with the word-boundary
and case-transition bonuses inspecting the original bytes — so that a
matched uppercase byte whose predecessor is lowercase gets the flat `+10`. -/
def fmGoSpecC4 (n : Nat) : List Nat → List Nat → List Nat → Int → Nat → Nat → Nat
  | _, _, [], _, _, score =>
      if n < 50 then score + (50 - n) * 2 else score
  | _, [], _ :: _, _, _, _ => 0
  | done, t :: ts, q :: qs, lastMatchIdx, consec, score =>
      if toLowerByte t == q then
        let positionScore := n - done.length
        let step :=
          if (done.length : Int) = lastMatchIdx + 1 then
            (consec + 1, positionScore + (consec + 1) * 10)
          else
            (0, positionScore)
        let wbBonus :=
          match done.head? with
          | none => 15
          | some p => if isWordBoundary p then 15 else 0
        let caseBonus :=
          match done.head? with
          | none => 0
          | some p => if isLower p && isUpper t then 10 else 0
        fmGoSpecC4 n (t :: done) ts qs (done.length : Int) step.1
          (score + step.2 + wbBonus + caseBonus)
      else
        fmGoSpecC4 n (t :: done) ts (q :: qs) lastMatchIdx consec score

/-- Claim C4's reading of the public-path score: the query is lower-cased,
but the text keeps its original casing for the bonus inspections. -/
def ScoreSpecC4 (text query : List Nat) : Nat :=
  if query.isEmpty then 1
  else if text.isEmpty then 0
  else fmGoSpecC4 text.length [] text (toLowerStr query) (-1) 0 0

/-- Written from claim C5's words: the previous match position is tracked as
an `Option` that starts absent, and the consecutive-match bonus is awarded
exactly when a previous match exists and this match immediately follows it —
so the first matched character never receives the bonus. -/
def fmGoSpecC5 (n : Nat) :
    List Nat → List Nat → List Nat → Option Nat → Nat → Nat → Nat
  | _, _, [], _, _, score =>
      if n < 50 then score + (50 - n) * 2 else score
  | _, [], _ :: _, _, _, _ => 0
  | done, t :: ts, q :: qs, lastMatch, consec, score =>
      if t == q then
        let positionScore := n - done.length
        let contiguous :=
          match lastMatch with
          | some j => done.length == j + 1
          | none => false
        let step :=
          if contiguous then
            (consec + 1, positionScore + (consec + 1) * 10)
          else
            (0, positionScore)
        let wbBonus :=
          match done.head? with
          | none => 15
          | some p => if isWordBoundary p then 15 else 0
        let caseBonus :=
          match done.head? with
          | none => 0
          | some p => if isLower p && isUpper t then 10 else 0
        fmGoSpecC5 n (t :: done) ts qs (some done.length) step.1
          (score + step.2 + wbBonus + caseBonus)
      else
        fmGoSpecC5 n (t :: done) ts (q :: qs) lastMatch consec score

/-- The scorer as claim C5 states it (first matched character never gets the
consecutive-match bonus). -/
def fuzzyMatchSpecC5 (text query : List Nat) : Nat :=
  if query.isEmpty then 1
  else if text.isEmpty then 0
  else fmGoSpecC5 text.length [] text query none 0 0

/-- Written from the amended claim C5: like `fmGoSpecC5`, except that with
no previous match a match at text position `0` also counts as contiguous
(this is what `lastMatchIdx = -1` does in the source). -/
def fmGoAmendC5 (n : Nat) :
    List Nat → List Nat → List Nat → Option Nat → Nat → Nat → Nat
  | _, _, [], _, _, score =>
      if n < 50 then score + (50 - n) * 2 else score
  | _, [], _ :: _, _, _, _ => 0
  | done, t :: ts, q :: qs, lastMatch, consec, score =>
      if t == q then
        let positionScore := n - done.length
        let contiguous :=
          match lastMatch with
          | some j => done.length == j + 1
          | none => done.length == 0
        let step :=
          if contiguous then
            (consec + 1, positionScore + (consec + 1) * 10)
          else
            (0, positionScore)
        let wbBonus :=
          match done.head? with
          | none => 15
          | some p => if isWordBoundary p then 15 else 0
        let caseBonus :=
          match done.head? with
          | none => 0
          | some p => if isLower p && isUpper t then 10 else 0
        fmGoAmendC5 n (t :: done) ts qs (some done.length) step.1
          (score + step.2 + wbBonus + caseBonus)
      else
        fmGoAmendC5 n (t :: done) ts (q :: qs) lastMatch consec score

/-- The scorer as the amended claim C5 states it. -/
def fuzzyMatchAmendC5 (text query : List Nat) : Nat :=
  if query.isEmpty then 1
  else if text.isEmpty then 0
  else fmGoAmendC5 text.length [] text query none 0 0

/-! ### A functional view of `sortByScore`

`passMax c S` reproduces one execution of the inner loop with `c` the value
currently at position `i` and `S` the segment `matches[j:]` still to scan:
it returns the value left at position `i` afterwards and the overwritten
segment.  `sortGo` chains the passes exactly as the outer loop does.  The
theorems below prove these equal to the index-based loops embedded from the
source. -/

def passMax (c : ScoredItem) : List ScoredItem → ScoredItem × List ScoredItem
  | [] => (c, [])
  | y :: ys =>
      if y.Score > c.Score then
        let r := passMax y ys
        (r.1, c :: r.2)
      else
        let r := passMax c ys
        (r.1, y :: r.2)

theorem passMax_length (c : ScoredItem) (l : List ScoredItem) :
    ((passMax c l).2).length = l.length := by
  induction l generalizing c with
  | nil => rfl
  | cons y ys ih =>
    unfold passMax
    by_cases h : y.Score > c.Score <;> simp [h, ih]

def sortGo : List ScoredItem → List ScoredItem
  | [] => []
  | x :: xs => (passMax x xs).1 :: sortGo (passMax x xs).2
termination_by l => l.length
decreasing_by simp [passMax_length]

end search

/-! ## Generic list lemmas used by the proofs -/

theorem getD_append_cons {α : Type} (P : List α) (c : α) (R : List α) (d : α) :
    (P ++ c :: R).getD P.length d = c := by
  induction P with
  | nil => rfl
  | cons p ps ih => simpa using ih

theorem set_append_cons {α : Type} (P : List α) (c : α) (R : List α) (x : α) :
    (P ++ c :: R).set P.length x = P ++ x :: R := by
  induction P with
  | nil => rfl
  | cons p ps ih => simp [ih]

theorem eraseIdx_append_cons {α : Type} (P : List α) (c : α) (R : List α) :
    (P ++ c :: R).eraseIdx P.length = P ++ R := by
  induction P with
  | nil => rfl
  | cons p ps ih => simpa using ih

open history search

/-! ## Claim C7 -/

/-- C7: for each mutating operation (`AddItem`, `DeleteItem`,
`IncrementItemCount`), if the durable-storage write fails then the
operation reports failure (`false`, or a non-nil error modelled as `false`)
and the in-memory index — items, hash set and `lastHash`, hence `Count` —
is returned exactly as it was: no partial state. -/
theorem c7_fail_closed (m : Manager) (c : List Nat) (now : Nat) (i : Int) :
    AddItem m c now false = (m, false) ∧
    DeleteItem m i false = (m, false) ∧
    IncrementItemCount m i false = (m, false) := by
  refine ⟨?_, ?_, ?_⟩ <;>
    simp only [AddItem, DeleteItem, IncrementItemCount] <;>
    split <;> simp

/-! ## Claim C10 -/

/-- C10: `GetItem` reports `found = false` exactly when the index is
outside `[0, Count m)`, and `DeleteItem` at an index outside `[0, Count m)`
returns `false` with the whole store state unchanged (whatever the storage
outcome would have been). -/
theorem c10_index_bounds (m : Manager) (i : Int) (dbOk : Bool) :
    ((GetItem m i).2 = false ↔ ¬ (0 ≤ i ∧ i < (Count m : Int))) ∧
    (¬ (0 ≤ i ∧ i < (Count m : Int)) → DeleteItem m i dbOk = (m, false)) := by
  constructor
  · simp only [GetItem, Count]
    split <;> simp_all
  · intro h
    simp only [DeleteItem, Count] at *
    split <;> simp_all

/-- Witness for C10 at a concrete out-of-range index. -/
theorem c10_index_bounds_witness :
    DeleteItem initManager (-1) true = (initManager, false) :=
  (c10_index_bounds initManager (-1) true).2 (by decide)

/-! ## Claim C3 -/

/-- Counterexample to C3 as stated: on a store that already contains the
content (here: one `AddItem` of byte string `"a"` away from the initial
store, with all durable inserts succeeding), calling `Add` twice more with
the same content increases `Count` by `0`, not by `1`. -/
theorem c3_counterexample :
    Count (AddItem (AddItem (AddItem initManager [97] 1 true).1 [97] 2 true).1
        [97] 3 true).1 = Count (AddItem initManager [97] 1 true).1 ∧
    ¬ (Count (AddItem (AddItem (AddItem initManager [97] 1 true).1 [97] 2 true).1
        [97] 3 true).1 = Count (AddItem initManager [97] 1 true).1 + 1) := by
  decide

/-- C3 as amended: for every store in which the content's fingerprint is not
yet tracked (`containsHash` is false) and whose durable inserts succeed,
calling `Add(c)` twice increases `Count` by exactly 1 in total — the first
call inserts and returns `true`, the second returns `false` and performs no
mutation at all.  (On a store already tracking the fingerprint both calls
are rejecting no-ops and `Count` increases by 0.) -/
theorem c3_dedup_idempotent (m : Manager) (c : List Nat) (t₁ t₂ : Nat)
    (h : containsHash m (hashOf c) = false) :
    (AddItem m c t₁ true).2 = true ∧
    Count (AddItem m c t₁ true).1 = Count m + 1 ∧
    AddItem (AddItem m c t₁ true).1 c t₂ true = ((AddItem m c t₁ true).1, false) := by
  simp only [AddItem, newClipboardItem, h, Bool.not_false, if_true, Count]
  refine ⟨trivial, by simp, ?_⟩
  have hcontains :
      containsHash
        { m with
            items := m.items ++ [⟨c, hashOf c, t₁, 0⟩],
            lastHash := hashOf c,
            hashes := insertKey m.hashes (hashOf c) } (hashOf c) = true := by
    simp [containsHash]
  simp [hcontains]

/-- Witness for C3 (amended) on the initial store. -/
theorem c3_dedup_idempotent_witness :
    Count (AddItem (AddItem initManager [97] 1 true).1 [97] 2 true).1 = 1 := by
  have h := c3_dedup_idempotent initManager [97] 1 2 (by decide)
  rw [h.2.2]
  exact h.2.1

/-! ## Claim C8 -/

/-- C8: after deleting the most recently added item, re-adding identical
content is still rejected: `DeleteItem` erases the hash-set entry but not
the separately retained `lastHash`, which `containsHash` also consults, so
the second `AddItem` returns `false`, creates nothing, and `Count` stays at
its pre-add value. -/
theorem c8_lasthash_survives_delete (m : Manager) (c : List Nat) (t₁ t₂ : Nat)
    (h : containsHash m (hashOf c) = false) :
    (DeleteItem (AddItem m c t₁ true).1 (m.items.length : Int) true).2 = true ∧
    ((DeleteItem (AddItem m c t₁ true).1 (m.items.length : Int) true).1).lastHash
      = hashOf c ∧
    Count (DeleteItem (AddItem m c t₁ true).1 (m.items.length : Int) true).1
      = Count m ∧
    AddItem (DeleteItem (AddItem m c t₁ true).1 (m.items.length : Int) true).1
        c t₂ true
      = ((DeleteItem (AddItem m c t₁ true).1 (m.items.length : Int) true).1,
         false) := by
  have hadd : (AddItem m c t₁ true).1 =
      { m with
          items := m.items ++ [⟨c, hashOf c, t₁, 0⟩],
          lastHash := hashOf c,
          hashes := insertKey m.hashes (hashOf c) } := by
    simp [AddItem, newClipboardItem, h]
  rw [hadd]
  have hbounds : (0 : Int) ≤ (m.items.length : Int) ∧
      (m.items.length : Int) <
        ((m.items ++ [(⟨c, hashOf c, t₁, 0⟩ : ClipboardHistory)]).length : Int) := by
    simp
  have hget : (m.items ++ [(⟨c, hashOf c, t₁, 0⟩ : ClipboardHistory)]).getD
      m.items.length default = ⟨c, hashOf c, t₁, 0⟩ :=
    getD_append_cons m.items _ [] default
  have herase : (m.items ++ [(⟨c, hashOf c, t₁, 0⟩ : ClipboardHistory)]).eraseIdx
      m.items.length = m.items := by
    simpa using eraseIdx_append_cons m.items (⟨c, hashOf c, t₁, 0⟩ : ClipboardHistory) []
  have hdel : DeleteItem
      { m with
          items := m.items ++ [⟨c, hashOf c, t₁, 0⟩],
          lastHash := hashOf c,
          hashes := insertKey m.hashes (hashOf c) } (m.items.length : Int) true =
      ({ m with
          items := m.items,
          lastHash := hashOf c,
          hashes := (insertKey m.hashes (hashOf c)).erase (hashOf c) }, true) := by
    simp only [DeleteItem, hbounds, and_self, if_true, Int.toNat_natCast, hget,
      herase]
  rw [hdel]
  refine ⟨rfl, rfl, by simp [Count], ?_⟩
  have hcontains : containsHash
      { m with
          items := m.items,
          lastHash := hashOf c,
          hashes := (insertKey m.hashes (hashOf c)).erase (hashOf c) }
      (hashOf c) = true := by
    simp [containsHash]
  simp [AddItem, newClipboardItem, hcontains]

/-- Witness for C8 on the initial store. -/
theorem c8_lasthash_survives_delete_witness :
    AddItem (DeleteItem (AddItem initManager [97] 1 true).1
        ((initManager.items.length : Int)) true).1 [97] 2 true
      = ((DeleteItem (AddItem initManager [97] 1 true).1
          ((initManager.items.length : Int)) true).1, false) :=
  (c8_lasthash_survives_delete initManager [97] 1 2 (by decide)).2.2.2

/-! ## Claim C2 -/

/-- Auxiliary: with an exhausted query the matching loop just applies the
final length bonus. -/
theorem fmGo_nil_query (n : Nat) (done rest : List Nat) (l : Int)
    (consec s : Nat) :
    fmGo n done rest [] l consec s = if n < 50 then s + (50 - n) * 2 else s := by
  cases rest <;> rfl

/-- Auxiliary: the matching loop succeeds (returns a positive score) on any
query that is a subsequence of the remaining text.  The side condition ties
the scanned prefix to `n` so that every position base score is at least 1. -/
theorem fmGo_pos (n : Nat) :
    ∀ (rest done query : List Nat) (l : Int) (consec s : Nat),
      done.length + rest.length = n → query ≠ [] → List.Sublist query rest →
      0 < fmGo n done rest query l consec s := by
  intro rest
  induction rest with
  | nil =>
    intro done query l consec s hn hq hsub
    exact absurd (List.eq_nil_of_sublist_nil hsub) hq
  | cons t ts ih =>
    intro done query l consec s hn hq hsub
    match query, hq with
    | q :: qs, _ =>
      simp only [fmGo]
      by_cases ht : (t == q) = true
      · simp only [ht, if_true]
        match qs with
        | [] =>
          have hpos : 0 < n - done.length := by
            simp only [List.length_cons] at hn
            omega
          rw [fmGo_nil_query]
          split <;> split <;> dsimp only <;> omega
        | q' :: qs' =>
          have hqs : List.Sublist (q' :: qs') ts := by
            have heq : t = q := by simpa using ht
            cases hsub with
            | cons _ h => exact List.sublist_of_cons_sublist h
            | cons₂ _ h => exact h
          exact ih (t :: done) (q' :: qs') _ _ _
            (by simp only [List.length_cons] at hn ⊢; omega) (by simp) hqs
      · simp only [ht, if_false]
        have hne : t ≠ q := by simpa using ht
        have hsub' : List.Sublist (q :: qs) ts := by
          cases hsub with
          | cons _ h => exact h
          | cons₂ _ h => exact absurd rfl hne
        exact ih (t :: done) (q :: qs) _ _ _
          (by simp only [List.length_cons] at hn ⊢; omega) (by simp) hsub'

/-- Auxiliary: a positive score from the matching loop means the remaining
query was matched in order, i.e. it is a subsequence of the remaining
text (the greedy scan never claims a match that is not there). -/
theorem fmGo_sublist (n : Nat) :
    ∀ (rest done query : List Nat) (l : Int) (consec s : Nat),
      0 < fmGo n done rest query l consec s →
      query = [] ∨ List.Sublist query rest := by
  intro rest
  induction rest with
  | nil =>
    intro done query l consec s hpos
    match query with
    | [] => exact Or.inl rfl
    | q :: qs => simp [fmGo] at hpos
  | cons t ts ih =>
    intro done query l consec s hpos
    match query with
    | [] => exact Or.inl rfl
    | q :: qs =>
      simp only [fmGo] at hpos
      by_cases ht : (t == q) = true
      · have heq : t = q := by simpa using ht
        simp only [ht, if_true] at hpos
        have := ih (t :: done) qs _ _ _ hpos
        refine Or.inr ?_
        subst heq
        rcases this with hnil | hs
        · subst hnil
          exact List.Sublist.cons₂ t (List.nil_sublist ts)
        · exact List.Sublist.cons₂ t hs
      · simp only [ht, if_false] at hpos
        rcases ih (t :: done) (q :: qs) _ _ _ hpos with hnil | hs
        · exact absurd hnil (by simp)
        · exact Or.inr (List.Sublist.cons t hs)

/-- C2: through the public scoring path (`Score`, i.e. `fuzzyMatch` on the
lower-cased forms, as `Search` invokes it), the score is positive exactly
when the query is empty or its lower-cased form is a subsequence of the
lower-cased text; in particular `"ace"` matches `"abcdef"` as a
non-contiguous subsequence, `"acb"` does not match `"abc"` (wrong order),
and a non-empty query never matches empty text. -/
theorem c2_score_pos_iff_subsequence (text query : List Nat) :
    (0 < Score text query ↔
      query = [] ∨ List.Sublist (toLowerStr query) (toLowerStr text)) ∧
    0 < Score [97, 98, 99, 100, 101, 102] [97, 99, 101] ∧
    Score [97, 98, 99] [97, 99, 98] = 0 ∧
    (query ≠ [] → Score [] query = 0) := by
  refine ⟨?_, by decide, by decide, ?_⟩
  · by_cases hq : query = []
    · subst hq
      simp [Score, fuzzyMatch, toLowerStr]
    · have hlq : toLowerStr query ≠ [] := by
        intro hcon
        exact hq (by simpa [toLowerStr] using hcon)
      by_cases htext : text = []
      · subst htext
        have : Score [] query = 0 := by
          simp only [Score, fuzzyMatch, toLowerStr, List.map_nil]
          simp [List.isEmpty_iff, hq]
        rw [this]
        simp only [Nat.lt_irrefl, false_iff]
        rintro (h | h)
        · exact hq h
        · exact hlq (List.eq_nil_of_sublist_nil h)
      · have hlt : toLowerStr text ≠ [] := by
          simp [toLowerStr, htext]
        have hopen : Score text query =
            fmGo (toLowerStr text).length [] (toLowerStr text)
              (toLowerStr query) (-1) 0 0 := by
          simp [Score, fuzzyMatch, List.isEmpty_iff, hlq, hlt]
        rw [hopen]
        constructor
        · intro hpos
          rcases fmGo_sublist _ _ _ _ _ _ _ hpos with hnil | hs
          · exact absurd hnil hlq
          · exact Or.inr hs
        · rintro (h | hs)
          · exact absurd h hq
          · exact fmGo_pos _ _ [] _ _ _ _ (by simp) hlq hs
  · intro h
    have hlq : query.map toLowerByte ≠ [] := by
      intro hcon
      exact h (by simpa using hcon)
    simp [Score, fuzzyMatch, toLowerStr, List.isEmpty_iff, hlq]

/-- Witness for C2 at a concrete non-empty query against empty text. -/
theorem c2_score_pos_iff_subsequence_witness : Score [] [97] = 0 :=
  (c2_score_pos_iff_subsequence [] [97]).2.2.2 (by decide)

/-! ## Claim C5 -/

/-- Auxiliary: the integer encoding of "previous match position":
`lastMatchIdx` in the source is `-1` when there has been no match yet. -/
def intOfOpt : Option Nat → Int
  | none => -1
  | some j => (j : Int)

/-- Auxiliary: the source's contiguity test `textIdx == lastMatchIdx + 1`
agrees with the `Option`-based test of the amended claim: a previous match
one position back, or no previous match and a match at position 0. -/
theorem contiguous_cond (dl : Nat) (o : Option Nat) :
    ((dl : Int) = intOfOpt o + 1) =
      ((match o with
        | some j => dl == j + 1
        | none => dl == 0) = true) := by
  cases o with
  | none =>
    simp only [intOfOpt]
    refine propext ?_
    constructor
    · intro h
      simp only [Nat.beq_eq_true_eq]
      omega
    · intro h
      simp only [Nat.beq_eq_true_eq] at h
      omega
  | some j =>
    simp only [intOfOpt]
    refine propext ?_
    constructor
    · intro h
      simp only [Nat.beq_eq_true_eq]
      omega
    · intro h
      simp only [Nat.beq_eq_true_eq] at h
      omega

/-- Auxiliary: the matching loop agrees step by step with the
`Option`-tracked variant of the amended claim C5. -/
theorem fmGo_eq_amendC5 (n : Nat) :
    ∀ (rest done query : List Nat) (o : Option Nat) (consec s : Nat),
      fmGo n done rest query (intOfOpt o) consec s =
        fmGoAmendC5 n done rest query o consec s := by
  intro rest
  induction rest with
  | nil =>
    intro done query o consec s
    cases query <;> rfl
  | cons t ts ih =>
    intro done query o consec s
    match query with
    | [] => rfl
    | q :: qs =>
      simp only [fmGo, fmGoAmendC5, contiguous_cond]
      by_cases ht : (t == q) = true
      · simp only [ht, if_true]
        exact ih (t :: done) qs (some done.length) _ _
      · simp only [ht, if_false]
        exact ih (t :: done) (q :: qs) o consec s

/-- Counterexample to C5 as stated: on text `"a"`, query `"a"`, the single
(first) matched character sits at text position 0, which the source's
`lastMatchIdx = -1` initialisation counts as contiguous, so it does receive
the consecutive-match bonus (score 124) while the claim's scorer — first
matched character never bonused — gives 114. -/
theorem c5_counterexample :
    ¬ fuzzyMatch [97] [97] = fuzzyMatchSpecC5 [97] [97] := by
  decide

/-- C5 as amended: a matched character receives the consecutive-match bonus
`consecutiveRunLength * 10` exactly when it immediately follows the
previous match position, **or** when there is no previous match and it
matches at text position 0 (because `lastMatchIdx` starts at `-1`); the run
length increments on each contiguous match and resets to 0 on a gap. -/
theorem c5_consecutive_bonus (text query : List Nat) :
    fuzzyMatch text query = fuzzyMatchAmendC5 text query := by
  simp only [fuzzyMatch, fuzzyMatchAmendC5]
  split
  · rfl
  · split
    · rfl
    · exact fmGo_eq_amendC5 text.length text [] query none 0 0

/-! ## Claim C4 -/

/-- Auxiliary: lower-casing a byte never yields an ASCII uppercase byte. -/
theorem isUpper_toLowerByte (c : Nat) : isUpper (toLowerByte c) = false := by
  by_cases h : isUpper c = true
  · have hc : 65 ≤ c ∧ c ≤ 90 := by simpa [isUpper] using h
    have hstep : toLowerByte c = c + 32 := by simp [toLowerByte, h]
    rw [hstep, Bool.eq_false_iff]
    intro hcon
    have hc2 : 65 ≤ c + 32 ∧ c + 32 ≤ 90 := by simpa [isUpper] using hcon
    omega
  · have hstep : toLowerByte c = c := by simp [toLowerByte, h]
    rw [hstep, Bool.eq_false_iff]
    exact h

/-- Auxiliary: on a text containing no uppercase byte, the matching loop
coincides with the loop that has the case-transition branch removed. -/
theorem fmGo_eq_NC (n : Nat) :
    ∀ (rest done query : List Nat) (l : Int) (consec s : Nat),
      (∀ c ∈ rest, isUpper c = false) →
      fmGo n done rest query l consec s = fmGoNC n done rest query l consec s := by
  intro rest
  induction rest with
  | nil =>
    intro done query l consec s _
    cases query <;> rfl
  | cons t ts ih =>
    intro done query l consec s hup
    match query with
    | [] => rfl
    | q :: qs =>
      have ht0 : isUpper t = false := hup t (by simp)
      have hts : ∀ c ∈ ts, isUpper c = false := fun c hc => hup c (by simp [hc])
      simp only [fmGo, fmGoNC]
      by_cases ht : (t == q) = true
      · simp only [ht, if_true]
        have hcb : (match done.head? with
            | none => 0
            | some p => if (isLower p && isUpper t) = true then 10 else 0) = 0 := by
          cases done <;> simp [ht0]
        rw [hcb]
        simpa using ih (t :: done) qs _ _ _ hts
      · simp only [ht, if_false]
        exact ih (t :: done) (q :: qs) l consec s hts

/-- Counterexample to C4 as stated: for item text `"aB"` and query `"b"`,
the matched `B` is uppercase and preceded by the lowercase `a` in the
original casing, so the claim's reading of the public path
(`ScoreSpecC4`, which matches case-insensitively but inspects the original
bytes) awards the flat `+10` (score 107); the code's public path lower-cases
the text before matching and scores 97 — no case-transition bonus. -/
theorem c4_counterexample :
    ¬ Score [97, 66] [98] = ScoreSpecC4 [97, 66] [98] := by
  decide

/-- C4 as amended: on the public search path the case-transition branch
inspects the already lower-cased text, in which no byte is uppercase, so
the branch never fires: the public score equals the score computed with the
case-transition bonus removed, and no matched character ever contributes
the `+10`. -/
theorem c4_case_bonus_dead (text query : List Nat) :
    Score text query = fuzzyMatchNC (toLowerStr text) (toLowerStr query) := by
  simp only [Score, fuzzyMatch, fuzzyMatchNC]
  split
  · rfl
  · split
    · rfl
    · refine fmGo_eq_NC _ _ [] _ _ _ _ ?_
      intro c hc
      rcases List.mem_map.mp hc with ⟨x, _, hx⟩
      rw [← hx]
      exact isUpper_toLowerByte x

/-! ## Claim C9 -/

/-- C9: `Search` with an empty query returns the distinguished "no filter"
signal (the nil slice, modelled `none`), for a non-empty query it always
returns a present (non-nil) list, and a non-empty query matching zero items
yields the present-but-empty list `some []` — distinguishable from `none`. -/
theorem c9_empty_query_signal (items : List history.ClipboardHistory)
    (query : List Nat) :
    (query = [] → Search items query = none) ∧
    (query ≠ [] → Search items query ≠ none) ∧
    (query ≠ [] →
      (∀ it ∈ items, fuzzyMatch (toLowerStr it.Item) (toLowerStr query) = 0) →
      Search items query = some []) := by
  refine ⟨?_, ?_, ?_⟩
  · intro h
    simp [Search, h]
  · intro h
    simp [Search, h]
  · intro h hzero
    have hnil : (items.filterMap fun item =>
        let score := fuzzyMatch (toLowerStr item.Item) (toLowerStr query)
        if score > 0 then some (ScoredItem.mk item score) else none) = [] := by
      refine List.filterMap_eq_nil_iff.mpr ?_
      intro it hit
      simp [hzero it hit]
    simp [Search, h, hnil, sortByScore, outerLoop]

/-- Witness for C9: query `"q"` against the single item `"x"` matches
nothing and yields `some []`, while the empty query yields `none`. -/
theorem c9_empty_query_signal_witness :
    Search [⟨[120], [0, 120], 0, 0⟩] [113] = some [] ∧
    Search [⟨[120], [0, 120], 0, 0⟩] [] = none := by
  constructor
  · exact (c9_empty_query_signal [⟨[120], [0, 120], 0, 0⟩] [113]).2.2
      (by decide) (by decide)
  · exact (c9_empty_query_signal [⟨[120], [0, 120], 0, 0⟩] []).1 rfl

/-! ## Claim C6 -/

/-- Auxiliary: a swap of positions `i` and `j` on a list decomposed around
those positions. -/
theorem listSwap_decomp (P : List ScoredItem) (c : ScoredItem)
    (M : List ScoredItem) (y : ScoredItem) (S : List ScoredItem) :
    listSwap (P ++ c :: (M ++ y :: S)) P.length (P.length + 1 + M.length) =
      P ++ y :: (M ++ c :: S) := by
  have hshape : P ++ c :: (M ++ y :: S) = (P ++ c :: M) ++ y :: S := by simp
  have hj : P.length + 1 + M.length = (P ++ c :: M).length := by
    simp only [List.length_append, List.length_cons]
    omega
  have hgi : (P ++ c :: (M ++ y :: S)).getD P.length default = c :=
    getD_append_cons P c (M ++ y :: S) default
  have hgj : (P ++ c :: (M ++ y :: S)).getD (P.length + 1 + M.length) default
      = y := by
    rw [hj, hshape]
    exact getD_append_cons (P ++ c :: M) y S default
  have hset1 : (P ++ c :: (M ++ y :: S)).set P.length y
      = P ++ y :: (M ++ y :: S) :=
    set_append_cons P c (M ++ y :: S) y
  have hshape2 : P ++ y :: (M ++ y :: S) = (P ++ y :: M) ++ y :: S := by simp
  have hj2 : P.length + 1 + M.length = (P ++ y :: M).length := by
    simp only [List.length_append, List.length_cons]
    omega
  simp only [listSwap, hgi, hgj, hset1]
  rw [hshape2, hj2, set_append_cons (P ++ y :: M) y S c]
  simp

/-- Auxiliary: one full run of the inner loop of `sortByScore`, started at
column `j = i + 1 + M.length` on an array decomposed as
`P ++ c :: (M ++ S)` (with `i = P.length` and `c` the current occupant of
position `i`), is one `passMax` pass over `S`. -/
theorem innerLoop_eq_passMax :
    ∀ (S M P : List ScoredItem) (c : ScoredItem),
      innerLoop P.length S.length (P.length + 1 + M.length)
          (P ++ c :: (M ++ S)) =
        P ++ (passMax c S).1 :: (M ++ (passMax c S).2) := by
  intro S
  induction S with
  | nil =>
    intro M P c
    simp [innerLoop, passMax]
  | cons y ys ih =>
    intro M P c
    have hlen : P.length + 1 + M.length < (P ++ c :: (M ++ y :: ys)).length := by
      simp only [List.length_append, List.length_cons]
      omega
    have hgj : (P ++ c :: (M ++ y :: ys)).getD (P.length + 1 + M.length) default
        = y := by
      have hshape : P ++ c :: (M ++ y :: ys) = (P ++ c :: M) ++ y :: ys := by
        simp
      have hj : P.length + 1 + M.length = (P ++ c :: M).length := by
        simp only [List.length_append, List.length_cons]
        omega
      rw [hj, hshape]
      exact getD_append_cons (P ++ c :: M) y ys default
    have hgi : (P ++ c :: (M ++ y :: ys)).getD P.length default = c :=
      getD_append_cons P c (M ++ y :: ys) default
    simp only [List.length_cons, innerLoop]
    rw [if_pos hlen, hgj, hgi]
    by_cases hcmp : y.Score > c.Score
    · rw [if_pos hcmp, listSwap_decomp P c M y ys]
      have harr : M ++ c :: ys = (M ++ [c]) ++ ys := by simp
      have hidx : P.length + 1 + M.length + 1
          = P.length + 1 + (M ++ [c]).length := by
        simp only [List.length_append, List.length_cons, List.length_nil]
        omega
      rw [harr, hidx, ih (M ++ [c]) P y]
      simp only [passMax]
      rw [if_pos hcmp]
      simp
    · rw [if_neg hcmp]
      have harr : M ++ y :: ys = (M ++ [y]) ++ ys := by simp
      have hidx : P.length + 1 + M.length + 1
          = P.length + 1 + (M ++ [y]).length := by
        simp only [List.length_append, List.length_cons, List.length_nil]
        omega
      rw [harr, hidx, ih (M ++ [y]) P c]
      simp only [passMax]
      rw [if_neg hcmp]
      simp

/-- Auxiliary: the outer loop of `sortByScore`, entered with `i` positions
already finalised (`D`), sorts the remainder as `sortGo` does. -/
theorem outerLoop_eq_sortGo :
    ∀ (fuel : Nat) (R D : List ScoredItem), R.length ≤ fuel + 1 →
      outerLoop fuel D.length (D ++ R) = D ++ sortGo R := by
  intro fuel
  induction fuel with
  | zero =>
    intro R D hlen
    match R, hlen with
    | [], _ => simp [outerLoop, sortGo]
    | [x], _ => simp [outerLoop, sortGo, passMax]
  | succ fuel ih =>
    intro R D hlen
    match R with
    | [] => simp [outerLoop, sortGo]
    | [x] =>
      simp only [outerLoop]
      rw [if_neg (by simp only [List.length_append, List.length_cons,
        List.length_nil]; omega)]
      simp [sortGo, passMax]
    | x :: y :: xs =>
      have hm := innerLoop_eq_passMax (y :: xs) [] D x
      simp only [List.length_nil, Nat.add_zero, List.nil_append] at hm
      simp only [outerLoop]
      rw [if_pos (by simp only [List.length_append, List.length_cons]; omega)]
      have hfuel : (D ++ x :: y :: xs).length - (D.length + 1)
          = (y :: xs).length := by
        simp only [List.length_append, List.length_cons]
        omega
      rw [hfuel, hm]
      have hstep : D ++ (passMax x (y :: xs)).1 :: (passMax x (y :: xs)).2
          = (D ++ [(passMax x (y :: xs)).1]) ++ (passMax x (y :: xs)).2 := by
        simp
      rw [hstep]
      have hD : D.length + 1 = (D ++ [(passMax x (y :: xs)).1]).length := by
        simp
      rw [hD, ih ((passMax x (y :: xs)).2) (D ++ [(passMax x (y :: xs)).1])
        (by rw [passMax_length]; simp only [List.length_cons] at hlen ⊢; omega)]
      rw [sortGo]
      simp

/-- Auxiliary: the imperative double loop of `sortByScore` equals the
functional selection sort `sortGo`. -/
theorem sortByScore_eq_sortGo (ms : List ScoredItem) :
    sortByScore ms = sortGo ms := by
  have h := outerLoop_eq_sortGo ms.length ms [] (by omega)
  simpa [sortByScore] using h

/-- Auxiliary: one pass keeps exactly the elements it was given. -/
theorem passMax_perm (c : ScoredItem) (l : List ScoredItem) :
    List.Perm ((passMax c l).1 :: (passMax c l).2) (c :: l) := by
  induction l generalizing c with
  | nil => exact List.Perm.refl _
  | cons y ys ih =>
    simp only [passMax]
    by_cases h : y.Score > c.Score
    · rw [if_pos h]
      exact (List.Perm.swap c (passMax y ys).1 (passMax y ys).2).trans
        ((ih y).cons c)
    · rw [if_neg h]
      exact (List.Perm.swap y (passMax c ys).1 (passMax c ys).2).trans
        ((ih c).cons y) |>.trans (List.Perm.swap c y ys)

/-- Auxiliary: the element a pass leaves at the front has the maximal
score among the element it started with and the scanned segment. -/
theorem passMax_max (c : ScoredItem) (l : List ScoredItem) :
    c.Score ≤ (passMax c l).1.Score ∧
      ∀ e ∈ l, e.Score ≤ (passMax c l).1.Score := by
  induction l generalizing c with
  | nil => simp [passMax]
  | cons y ys ih =>
    simp only [passMax]
    by_cases h : y.Score > c.Score
    · rw [if_pos h]
      obtain ⟨h1, h2⟩ := ih y
      refine ⟨le_trans (le_of_lt h) h1, ?_⟩
      intro e he
      rcases List.mem_cons.mp he with rfl | he
      · exact h1
      · exact h2 e he
    · rw [if_neg h]
      obtain ⟨h1, h2⟩ := ih c
      refine ⟨h1, ?_⟩
      intro e he
      rcases List.mem_cons.mp he with rfl | he
      · exact le_trans (Nat.le_of_not_lt h) h1
      · exact h2 e he

/-- Auxiliary: `sortGo` permutes its input. -/
theorem sortGo_perm_bounded :
    ∀ (n : Nat) (l : List ScoredItem), l.length ≤ n →
      List.Perm (sortGo l) l := by
  intro n
  induction n with
  | zero =>
    intro l h
    match l, h with
    | [], _ => simp [sortGo]
  | succ n ih =>
    intro l h
    match l with
    | [] => simp [sortGo]
    | x :: xs =>
      rw [sortGo]
      refine List.Perm.trans ?_ (passMax_perm x xs)
      refine (ih ((passMax x xs).2) ?_).cons _
      rw [passMax_length]
      simpa using h

theorem sortGo_perm (l : List ScoredItem) : List.Perm (sortGo l) l :=
  sortGo_perm_bounded l.length l (Nat.le_refl _)

/-- Auxiliary: `sortGo` produces a sequence with non-increasing scores. -/
theorem sortGo_sorted_bounded :
    ∀ (n : Nat) (l : List ScoredItem), l.length ≤ n →
      (sortGo l).Pairwise (fun a b => b.Score ≤ a.Score) := by
  intro n
  induction n with
  | zero =>
    intro l h
    match l, h with
    | [], _ => simp [sortGo]
  | succ n ih =>
    intro l h
    match l with
    | [] => simp [sortGo]
    | x :: xs =>
      rw [sortGo]
      have hlen : (passMax x xs).2.length ≤ n := by
        rw [passMax_length]
        simpa using h
      refine List.Pairwise.cons ?_ (ih _ hlen)
      intro b hb
      have hb2 : b ∈ (passMax x xs).2 :=
        (sortGo_perm _).mem_iff.mp hb
      have hb3 : b ∈ x :: xs :=
        (passMax_perm x xs).subset (List.mem_cons_of_mem _ hb2)
      rcases List.mem_cons.mp hb3 with hbx | hbxs
      · exact hbx ▸ (passMax_max x xs).1
      · exact (passMax_max x xs).2 b hbxs

theorem sortGo_sorted (l : List ScoredItem) :
    (sortGo l).Pairwise (fun a b => b.Score ≤ a.Score) :=
  sortGo_sorted_bounded l.length l (Nat.le_refl _)

/-- Auxiliary: dropping the scores from the kept-and-scored list recovers a
plain filter of the input. -/
theorem filterMap_scored_map_item (items : List history.ClipboardHistory)
    (q : List Nat) :
    ((items.filterMap fun item =>
        let score := fuzzyMatch (toLowerStr item.Item) q
        if score > 0 then some (ScoredItem.mk item score) else none)).map
        (·.Item)
      = items.filter fun it =>
          decide (0 < fuzzyMatch (toLowerStr it.Item) q) := by
  induction items with
  | nil => rfl
  | cons it its ih =>
    by_cases h : 0 < fuzzyMatch (toLowerStr it.Item) q <;>
      simp [List.filterMap_cons, List.filter_cons, h, ih]

/-- Auxiliary: every scored candidate records the score of its own item. -/
theorem mem_filterMap_score (items : List history.ClipboardHistory)
    (q : List Nat) (si : ScoredItem)
    (h : si ∈ items.filterMap fun item =>
        let score := fuzzyMatch (toLowerStr item.Item) q
        if score > 0 then some (ScoredItem.mk item score) else none) :
    si.Score = fuzzyMatch (toLowerStr si.Item.Item) q := by
  rcases List.mem_filterMap.mp h with ⟨it, _, hit⟩
  dsimp only at hit
  split at hit
  · cases Option.some.inj hit
    rfl
  · cases hit

/-- Counterexample to C6 as stated: the inputs `"xa"`, `"ya"`, `"a"` with
query `"a"` give `"xa"` and `"ya"` equal scores (97 each) with `"xa"`
first in the input, yet `Search` returns them as `"a"`, `"ya"`, `"xa"` —
the equal-score pair comes back in reversed input order, because the
selection-style sort's swap is not stable. -/
theorem c6_counterexample :
    Search [⟨[120, 97], [1], 0, 0⟩, ⟨[121, 97], [2], 0, 0⟩, ⟨[97], [3], 0, 0⟩]
        [97]
      = some [⟨[97], [3], 0, 0⟩, ⟨[121, 97], [2], 0, 0⟩,
              ⟨[120, 97], [1], 0, 0⟩] ∧
    Score [120, 97] [97] = Score [121, 97] [97] := by
  decide

/-- C6 as amended: for every item list and non-empty query, `Search`
returns (present) exactly the items whose public-path score is positive,
as a permutation of that filtered input sorted by non-increasing score;
the relative order of equal-score items is **not** preserved in general
(the swap-based selection sort can reverse an equal-score pair). -/
theorem c6_search_sorted (items : List history.ClipboardHistory)
    (query : List Nat) (h : query ≠ []) :
    ∃ l, Search items query = some l ∧
      List.Perm l (items.filter fun it =>
        decide (0 < fuzzyMatch (toLowerStr it.Item) (toLowerStr query))) ∧
      l.Pairwise (fun a b => Score b.Item query ≤ Score a.Item query) := by
  have hq : (query == []) = false := by
    simp [h]
  refine ⟨_, by rw [Search, hq]; rfl, ?_, ?_⟩
  · rw [sortByScore_eq_sortGo]
    refine List.Perm.trans (List.Perm.map _ (sortGo_perm _)) ?_
    rw [filterMap_scored_map_item]
  · rw [sortByScore_eq_sortGo]
    rw [List.pairwise_map]
    refine List.Pairwise.imp_of_mem ?_ (sortGo_sorted _)
    intro a b ha hb hle
    have ha2 := (sortGo_perm _).subset ha
    have hb2 := (sortGo_perm _).subset hb
    have ha3 := mem_filterMap_score items (toLowerStr query) a ha2
    have hb3 := mem_filterMap_score items (toLowerStr query) b hb2
    simpa [Score, ha3, hb3] using hle

/-- Witness for C6 (amended) on the concrete three-item search. -/
theorem c6_search_sorted_witness :
    ∃ l, Search [⟨[120, 97], [1], 0, 0⟩, ⟨[121, 97], [2], 0, 0⟩,
        ⟨[97], [3], 0, 0⟩] [97] = some l ∧
      List.Perm l ([⟨[120, 97], [1], 0, 0⟩, ⟨[121, 97], [2], 0, 0⟩,
        ⟨[97], [3], 0, 0⟩].filter fun it =>
          decide (0 < fuzzyMatch (toLowerStr it.Item) (toLowerStr [97]))) ∧
      l.Pairwise (fun a b => Score b.Item [97] ≤ Score a.Item [97]) :=
  c6_search_sorted
    [⟨[120, 97], [1], 0, 0⟩, ⟨[121, 97], [2], 0, 0⟩, ⟨[97], [3], 0, 0⟩]
    [97] (by decide)

/-! ## Claim C1 -/

/-- Counterexample to C1 as stated: the state reached from the initial
store by `Add("a")` at time 1 then `Add("b")` at time 2 (both inserts
succeeding) is reachable through the public operations, both items have
`copyCount = 0`, the second has the higher `capturedAt`, yet `GetItems`
lists it after the first — the ranking invariant fails on the in-memory
order, because `AddItem` appends at the end. -/
theorem c1_counterexample :
    ¬ (GetItems (AddItem (AddItem initManager [97] 1 true).1 [98] 2 true).1).Pairwise
      rankRel := by
  decide

/-- C1 as amended: the ranking invariant (descending `copyCount`, ties by
descending `capturedAt`) holds for the item sequence produced by `Reload`
(`LoadFromDB`) whenever the durable rows arrive in the order fixed by the
`LoadAll` query (`count DESC, timestamp DESC`), and it is preserved by
`DeleteItem`; it is not maintained by `AddItem` (which appends at the end)
or `IncrementItemCount` (which bumps a count in place without reordering). -/
theorem c1_ranking_after_reload :
    (∀ (m : Manager) (entries : List ClipboardEntry),
        entries.Pairwise dbOrder →
        (GetItems (LoadFromDB m (some entries)).1).Pairwise rankRel) ∧
    (∀ (m : Manager) (i : Int) (dbOk : Bool),
        (GetItems m).Pairwise rankRel →
        (GetItems (DeleteItem m i dbOk).1).Pairwise rankRel) := by
  constructor
  · intro m entries hsorted
    simp only [GetItems, LoadFromDB, List.pairwise_map]
    refine hsorted.imp ?_
    intro a b hab
    have h1 : b.Count ≤ a.Count ∧ (a.Count = b.Count → b.Timestamp ≤ a.Timestamp) := by
      rcases hab with hlt | ⟨heq, hle⟩
      · exact ⟨Nat.le_of_lt hlt, fun hc => by omega⟩
      · exact ⟨Nat.le_of_eq heq.symm, fun _ => hle⟩
    exact ⟨h1.1, h1.2⟩
  · intro m i dbOk hsorted
    simp only [GetItems, DeleteItem] at *
    split
    · split
      · exact hsorted.sublist (List.eraseIdx_sublist _ _)
      · exact hsorted
    · exact hsorted

/-- Witness for C1 (amended): reloading two concrete sorted rows yields a
ranked sequence, and deleting from it keeps it ranked. -/
theorem c1_ranking_after_reload_witness :
    (GetItems (LoadFromDB initManager
        (some [⟨[97], [0, 97], 5, 2⟩, ⟨[98], [0, 98], 9, 0⟩])).1).Pairwise
      rankRel ∧
    (GetItems (DeleteItem (LoadFromDB initManager
        (some [⟨[97], [0, 97], 5, 2⟩, ⟨[98], [0, 98], 9, 0⟩])).1 0 true).1).Pairwise
      rankRel := by
  constructor
  · exact c1_ranking_after_reload.1 initManager
      [⟨[97], [0, 97], 5, 2⟩, ⟨[98], [0, 98], 9, 0⟩] (by decide)
  · exact c1_ranking_after_reload.2 _ 0 true
      (c1_ranking_after_reload.1 initManager
        [⟨[97], [0, 97], 5, 2⟩, ⟨[98], [0, 98], 9, 0⟩] (by decide))
